import Mathlib

/-!
Verification of the Confluence storage-format → Markdown converter
(`src/confluence_2_md/converter.py`).  The Python functions relevant to the
claims are shallowly embedded as executable Lean definitions operating on
`String` / `List Char`, and the claims are settled as theorems about those
definitions.
-/

namespace Confluence2Md

/-- Whitespace characters recognised by Python's `str.strip` / `str.rstrip`
(ASCII subset; the inputs handled here contain no other whitespace). -/
def pyIsSpace (c : Char) : Bool :=
  c = ' ' || c = '\t' || c = '\n' || c = '\r' || c = '\x0b' || c = '\x0c'

/-- Python `str.rstrip()` on a list of characters. -/
def rstripL (l : List Char) : List Char :=
  (l.reverse.dropWhile pyIsSpace).reverse

/-- Python `str.strip()` on a list of characters. -/
def stripL (l : List Char) : List Char :=
  ((l.dropWhile pyIsSpace).reverse.dropWhile pyIsSpace).reverse

/-- Python `str.strip()` on a `String`. -/
def pyStrip (s : String) : String := ⟨stripL s.data⟩

/-- Python `s.split("\n")` on a list of characters. -/
def splitNl : List Char → List (List Char)
  | [] => [[]]
  | c :: cs =>
    if c = '\n' then [] :: splitNl cs
    else
      match splitNl cs with
      | l :: ls => (c :: l) :: ls
      | [] => [[c]]

/-- Python `"\n".join(lines)` on lists of characters. -/
def joinNl : List (List Char) → List Char
  | [] => []
  | [l] => l
  | l :: ls => l ++ '\n' :: joinNl ls

/-- Embeds `re.sub(r"\n{3,}", "\n\n", _)` as a left-to-right scan: `k` counts the
newlines already emitted for the current run; once two have been emitted the
remaining newlines of the run are dropped. -/
def collapseAux : Nat → List Char → List Char
  | _, [] => []
  | k, c :: cs =>
    if c = '\n' then
      if k < 2 then '\n' :: collapseAux (k + 1) cs
      else collapseAux k cs
    else c :: collapseAux 0 cs

/-- Embeds `re.sub(r"\n{3,}", "\n\n", md)`: collapse each maximal run of three or
more newlines down to exactly two. -/
def collapseNl (l : List Char) : List Char := collapseAux 0 l

/-- Embeds `"\n".join(line.rstrip() for line in md.split("\n"))`. -/
def rstripLines (l : List Char) : List Char :=
  joinNl ((splitNl l).map rstripL)

/-- Embeds `_postprocess` from `converter.py`: collapse 3+ newline runs to 2, strip
trailing whitespace from every line, then trim the document and append one
trailing newline. -/
def postprocess (md : String) : String :=
  ⟨stripL (rstripLines (collapseNl md.data)) ++ ['\n']⟩

/-- The guard of `convert` in `converter.py`: `if not html or not
html.strip(): return ""`.  The rest of the pipeline (CDATA stripping,
parsing, the normalisation passes, rendering, post-processing) is abstracted
as an arbitrary function `pipeline`, which is only reached when the guard
does not fire. -/
def convert (pipeline : String → String) (html : String) : String :=
  if html.isEmpty || (pyStrip html).isEmpty then "" else pipeline html

/-- Embeds `code.replace("|", "\\|")` on a list of characters. -/
def escapePipesL : List Char → List Char
  | [] => []
  | c :: cs => if c = '|' then '\\' :: '|' :: escapePipesL cs else c :: escapePipesL cs

/-- Embeds `code.replace("|", "\\|")`. -/
def escapePipes (s : String) : String := ⟨escapePipesL s.data⟩

/-- Embeds `escaped.replace("\n", "<br>")` on a list of characters. -/
def nlToBrL : List Char → List Char
  | [] => []
  | c :: cs => if c = '\n' then '<' :: 'b' :: 'r' :: '>' :: nlToBrL cs else c :: nlToBrL cs

/-- Embeds `escaped.replace("\n", "<br>")`. -/
def nlToBr (s : String) : String := ⟨nlToBrL s.data⟩

/-- Python `raw.strip("\n")`: remove leading and trailing newline characters
only. -/
def stripOnlyNl (s : String) : String :=
  ⟨((s.data.dropWhile (· = '\n')).reverse.dropWhile (· = '\n')).reverse⟩

/-- Embeds `_ConfluenceMarkdownConverter.convert_pre`.  `in_table` models
`self._in_table(parent_tags)` (a `td`/`th` ancestor), `lang` models
`el.get("data-lang", "")`, and `raw` models the raw text extracted from the
inner `code` element (or the `pre` element itself). -/
def convert_pre (in_table : Bool) (lang : String) (raw : String) : String :=
  if (pyStrip raw).isEmpty then ""
  else
    let code := stripOnlyNl raw
    if in_table then
      let escaped := escapePipes code
      if ¬ ('\n' ∈ escaped.data) then " `" ++ escaped ++ "` "
      else " <code>" ++ nlToBr escaped ++ "</code> "
    else "\n```" ++ lang ++ "\n" ++ code ++ "\n```\n"

/-- Embeds `_ConfluenceMarkdownConverter.convert_code`.  `in_pre` models
`"pre" in parent_tags`, `in_table` models a `td`/`th` ancestor. -/
def convert_code (in_pre : Bool) (in_table : Bool) (text : String) : String :=
  if text.isEmpty then ""
  else if in_pre then text
  else if in_table then "`" ++ escapePipes text ++ "`"
  else "`" ++ text ++ "`"

/-- Embeds `_ConfluenceMarkdownConverter.convert_mark`.  `obsidian` models
`self.options.get("obsidian")`; `color` models
`el.get("data-highlight-color", "")` (so `""` means the attribute is
absent). -/
def convert_mark (obsidian : Bool) (color : String) (text : String) : String :=
  if text.isEmpty then ""
  else if obsidian then
    if ¬ color.isEmpty ∧ color ≠ "yellow" then
      "<mark style=\"background: " ++ color ++ "\">" ++ text ++ "</mark>"
    else "==" ++ text ++ "=="
  else if ¬ color.isEmpty then
    "<mark style=\"background: " ++ color ++ "\">" ++ text ++ "</mark>"
  else "<mark>" ++ text ++ "</mark>"

/-- Step 4 of `_preprocess_highlights`: an existing `mark` element without a
`data-highlight-color` attribute (modelled as `""`) is given the default
colour `"yellow"`. -/
def normalizeMarkColor (color : String) : String :=
  if color.isEmpty then "yellow" else color

end Confluence2Md

namespace Confluence2Md

/-! ## C4: empty / whitespace-only input -/

theorem dropWhile_eq_nil_of_all {p : Char → Bool} :
    ∀ l : List Char, (∀ c ∈ l, p c = true) → l.dropWhile p = [] := by
  intro l h
  induction l with
  | nil => rfl
  | cons c cs ih =>
    simp only [List.dropWhile_cons, h c (by simp), if_true]
    exact ih fun d hd => h d (by simp [hd])

theorem stripL_eq_nil_of_all (l : List Char) (h : ∀ c ∈ l, pyIsSpace c = true) :
    stripL l = [] := by
  unfold stripL
  rw [dropWhile_eq_nil_of_all l h]
  rfl

/-- C4: for every input string that is empty or consists only of whitespace
characters, `convert` returns the empty string immediately; the remaining
phases (modelled by the arbitrary `pipeline` function) are never run. -/
theorem convert_whitespace_empty (pipeline : String → String) (html : String)
    (h : ∀ c ∈ html.data, pyIsSpace c = true) :
    convert pipeline html = "" := by
  unfold convert
  have hs : (pyStrip html).isEmpty = true := by
    unfold pyStrip
    rw [stripL_eq_nil_of_all html.data h]
    rfl
  simp [hs]

/-- Witness for C4 at the concrete whitespace input `" \t\n "`, with a
pipeline that would visibly change any input it were handed. -/
theorem convert_whitespace_empty_witness :
    convert (fun s => s ++ "CHANGED") " \t\n " = "" :=
  convert_whitespace_empty (fun s => s ++ "CHANGED") " \t\n " (by decide)

/-! ## C10: blank `pre` elements render as the empty string -/

/-- C10: a `pre` element whose raw code text is empty or whitespace-only
renders as the empty string, in table-cell context and outside it alike. -/
theorem convert_pre_blank_empty (in_table : Bool) (lang : String) (raw : String)
    (h : ∀ c ∈ raw.data, pyIsSpace c = true) :
    convert_pre in_table lang raw = "" := by
  unfold convert_pre
  have hs : (pyStrip raw).isEmpty = true := by
    unfold pyStrip
    rw [stripL_eq_nil_of_all raw.data h]
    rfl
  simp [hs]

/-- Witness for C10 at the whitespace-only body `" \n  \t"`, in both the
table-cell and the non-table context. -/
theorem convert_pre_blank_empty_witness :
    convert_pre true "python" " \n  \t" = "" ∧ convert_pre false "python" " \n  \t" = "" :=
  ⟨convert_pre_blank_empty true "python" " \n  \t" (by decide),
   convert_pre_blank_empty false "python" " \n  \t" (by decide)⟩

/-! ## C5: `pre` elements inside a table cell -/

theorem mem_nl_escapePipesL (l : List Char) : '\n' ∈ escapePipesL l ↔ '\n' ∈ l := by
  induction l with
  | nil => simp [escapePipesL]
  | cons c cs ih =>
    by_cases hc : c = '|'
    · subst hc
      simp [escapePipesL, ih]
    · simp [escapePipesL, hc, ih]

theorem head?_data_append_of (x y : String) (c : Char) (h : x.data.head? = some c) :
    (x ++ y).data.head? = some c := by
  rw [String.data_append]
  cases hx : x.data with
  | nil => rw [hx] at h; cases h
  | cons a l => rw [hx] at h; simpa using h

theorem string_ne_of_head (x y : String) (c d : Char)
    (hx : x.data.head? = some c) (hy : y.data.head? = some d) (hcd : c ≠ d) : x ≠ y := by
  intro h
  rw [h, hy] at hx
  exact hcd (Option.some.inj hx).symm

/-- C5: inside a table cell a non-blank `pre` body never becomes a fenced
code block: a single-line body (no newline after stripping boundary
newlines) renders as an inline backtick span with pipes escaped, a
multi-line body renders as a literal `<code>` element with each newline
replaced by `<br>`, and in neither case does the output equal the fenced
form used outside tables. -/
theorem convert_pre_in_table_spec (lang : String) (raw : String)
    (h : ¬ (pyStrip raw).isEmpty = true) :
    (('\n' ∉ (stripOnlyNl raw).data) →
      convert_pre true lang raw = " `" ++ escapePipes (stripOnlyNl raw) ++ "` ") ∧
    (('\n' ∈ (stripOnlyNl raw).data) →
      convert_pre true lang raw = " <code>" ++ nlToBr (escapePipes (stripOnlyNl raw)) ++ "</code> ") ∧
    convert_pre true lang raw ≠ "\n```" ++ lang ++ "\n" ++ stripOnlyNl raw ++ "\n```\n" := by
  have hmem : '\n' ∈ (escapePipes (stripOnlyNl raw)).data ↔ '\n' ∈ (stripOnlyNl raw).data :=
    mem_nl_escapePipesL (stripOnlyNl raw).data
  refine ⟨?_, ?_, ?_⟩
  · intro hnl
    unfold convert_pre
    simp only [h, if_false, if_true, Bool.false_eq_true]
    rw [if_pos (by simpa [hmem] using hnl)]
  · intro hnl
    unfold convert_pre
    simp only [h, if_false, if_true, Bool.false_eq_true]
    rw [if_neg (by simpa [hmem] using hnl)]
  · have hfence : ("\n```" ++ lang ++ "\n" ++ stripOnlyNl raw ++ "\n```\n").data.head? = some '\n' := by
      refine head?_data_append_of _ _ _ (head?_data_append_of _ _ _ (head?_data_append_of _ _ _ (head?_data_append_of _ _ _ rfl)))
    have hout : (convert_pre true lang raw).data.head? = some ' ' := by
      unfold convert_pre
      simp only [h, if_false, if_true, Bool.false_eq_true]
      by_cases hnl : '\n' ∈ (escapePipes (stripOnlyNl raw)).data
      · rw [if_neg (not_not_intro hnl)]
        exact head?_data_append_of _ _ _ (head?_data_append_of _ _ _ rfl)
      · rw [if_pos hnl]
        exact head?_data_append_of _ _ _ (head?_data_append_of _ _ _ rfl)
    exact string_ne_of_head _ _ _ _ hout hfence (by decide)

/-- Witness for C5: the single-line body `"a|b"` and the two-line body
`"x\ny"`, inside a table cell. -/
theorem convert_pre_in_table_spec_witness :
    convert_pre true "" "a|b" = " `a\\|b` " ∧
    convert_pre true "" "x\ny" = " <code>x<br>y</code> " := by
  refine ⟨?_, ?_⟩
  · have h := (convert_pre_in_table_spec "" "a|b" (by decide)).1 (by decide)
    rw [h]; decide
  · have h := (convert_pre_in_table_spec "" "x\ny" (by decide)).2.1 (by decide)
    rw [h]; decide

/-! ## C7: inline code inside a table cell -/

/-- Predicate: `pipesEscapedAux pb l = true` states that every pipe character in `l` is
immediately preceded by a backslash (`pb` records whether the character just
before `l` was a backslash). -/
def pipesEscapedAux : Bool → List Char → Bool
  | _, [] => true
  | pb, c :: cs =>
    if c = '|' then pb && pipesEscapedAux false cs
    else pipesEscapedAux (c = '\\') cs

theorem pipesEscapedAux_escapePipesL (l : List Char) :
    ∀ (pb : Bool) (rest : List Char), (∀ b, pipesEscapedAux b rest = true) →
      pipesEscapedAux pb (escapePipesL l ++ rest) = true := by
  induction l with
  | nil => intro pb rest hrest; simpa using hrest pb
  | cons c cs ih =>
    intro pb rest hrest
    by_cases hc : c = '|'
    · subst hc
      simp only [escapePipesL, if_pos rfl, List.cons_append]
      simp only [pipesEscapedAux, if_neg (show ¬ ('\\' = '|') by decide), if_pos rfl]
      simp [ih false rest hrest]
    · simp only [escapePipesL, if_neg hc, List.cons_append]
      simp only [pipesEscapedAux, if_neg hc]
      exact ih _ rest hrest

/-- C7: a non-empty inline code element (not inside `pre`) rendered in a
table cell is wrapped in single backticks with every pipe escaped as `\|`;
consequently every pipe character in the emitted span is immediately
preceded by a backslash, so it cannot act as a column separator. -/
theorem convert_code_table_escapes (text : String) (h : ¬ text.isEmpty = true) :
    convert_code false true text = "`" ++ escapePipes text ++ "`" ∧
    pipesEscapedAux false (convert_code false true text).data = true := by
  have heq : convert_code false true text = "`" ++ escapePipes text ++ "`" := by
    unfold convert_code
    simp [h]
  refine ⟨heq, ?_⟩
  rw [heq, String.data_append, String.data_append]
  rw [List.append_assoc]
  have h1 : ("`" : String).data = [(Char.ofNat 96)] := by decide
  rw [h1]
  simp only [pipesEscapedAux, List.cons_append, if_neg (show ¬ (Char.ofNat 96 = '|') by decide)]
  exact pipesEscapedAux_escapePipesL text.data _ _ (fun b => by
    simp only [pipesEscapedAux, if_neg (show ¬ (Char.ofNat 96 = '|') by decide)])

/-- Witness for C7 at the concrete cell text `"a|b"`. -/
theorem convert_code_table_escapes_witness :
    convert_code false true "a|b" = "`a\\|b`" ∧
    pipesEscapedAux false (convert_code false true "a|b").data = true := by
  have h := convert_code_table_escapes "a|b" (by decide)
  refine ⟨?_, h.2⟩
  rw [h.1]; decide

/-! ## C2: `mark` rendering in the standard flavor -/

/-- C2 counterexample: in the standard flavor a mark whose stored colour is
the default `"yellow"` does **not** render as a bare `<mark>`: the code tests
only whether a colour is stored at all, so the default yellow still gets a
`style` attribute. -/
theorem convert_mark_yellow_styled :
    convert_mark false "yellow" "hi" = "<mark style=\"background: yellow\">hi</mark>" ∧
    convert_mark false "yellow" "hi" ≠ "<mark>hi</mark>" := by
  constructor
  · decide
  · decide

/-- C2 amended: in the standard flavor the renderer emits a literal `<mark>`
tag with a `style` attribute whenever *any* colour is stored, the default
yellow included; the bare `<mark>` form appears only when no colour is
stored.  Since highlight normalization defaults every colourless mark to
`"yellow"`, every normalized mark renders with a style attribute. -/
theorem convert_mark_standard_spec (color : String) (text : String)
    (h : ¬ text.isEmpty = true) :
    convert_mark false color text =
      (if color.isEmpty then "<mark>" ++ text ++ "</mark>"
       else "<mark style=\"background: " ++ color ++ "\">" ++ text ++ "</mark>") ∧
    convert_mark false (normalizeMarkColor color) text =
      "<mark style=\"background: " ++ normalizeMarkColor color ++ "\">" ++ text ++ "</mark>" := by
  constructor
  · unfold convert_mark
    by_cases hc : color.isEmpty <;> simp [h, hc]
  · have hn : ¬ (normalizeMarkColor color).isEmpty = true := by
      unfold normalizeMarkColor
      by_cases hc : color.isEmpty = true
      · rw [if_pos hc]; decide
      · rw [if_neg hc]; exact hc
    unfold convert_mark
    simp [h, hn]

/-- Witness for C2 at a pre-existing mark that lacked a colour and was
defaulted to yellow by highlight normalization. -/
theorem convert_mark_standard_spec_witness :
    convert_mark false (normalizeMarkColor "") "hi" =
      "<mark style=\"background: yellow\">hi</mark>" := by
  have h := (convert_mark_standard_spec "" "hi" (by decide)).2
  rw [h]; decide

/-! ## C3: page links and content-entity links -/

/-- An `ac:link` element as inspected by `_preprocess_page_links`:
whether an `ri:page` child is present (with its optional `ri:content-title`
attribute), whether an `ri:content-entity` child is present (with its
optional `ri:content-title` attribute), and whether a link body
(`ac:link-body` / `ac:plain-text-link-body`) is present, carrying its
stripped text. -/
structure AcLink where
  page : Option (Option String)
  entity : Option (Option String)
  body : Option String

/-- Embeds `_preprocess_page_links`, per link element.  Returns `some (href, text)`
for the anchor the link is replaced with, or `none` when the element is left
untouched (neither an `ri:page` nor an `ri:content-entity` child). -/
def preprocess_page_links (link : AcLink) : Option (String × String) :=
  match link.page with
  | some titleAttr =>
    let title := titleAttr.getD ""
    let display := match link.body with | some b => b | none => title
    some ("", if display.isEmpty then "Link" else display)
  | none =>
    match link.entity with
    | some titleAttr => some ("", titleAttr.getD "Link")
    | none => none

/-- C3 counterexample: for a content-entity reference the link body is
ignored — a link carrying both an entity title and a body renders the entity
title, not the body text, so the resolution order is *not* the same as in
the page-reference case. -/
theorem page_link_entity_ignores_body :
    preprocess_page_links ⟨none, some (some "Entity Title"), some "Body Text"⟩ =
      some ("", "Entity Title") ∧
    ("Entity Title" : String) ≠ "Body Text" := by
  exact ⟨rfl, by decide⟩

/-- C3 amended: the normalizer replaces a page-reference link with an anchor
of empty href whose text is the link body's text when a body is present,
else the referenced title, with the literal `"Link"` substituted when the
resolved text is empty; a content-entity link instead ignores any link body
and uses the entity's title attribute, defaulting to `"Link"` only when the
attribute is absent; a link with neither reference is left untouched. -/
theorem preprocess_page_links_spec (pt : Option String) (e : Option (Option String))
    (et : Option String) (body : Option String) :
    preprocess_page_links ⟨some pt, e, body⟩ =
      some ("", if (body.getD (pt.getD "")).isEmpty then "Link" else body.getD (pt.getD "")) ∧
    preprocess_page_links ⟨none, some et, body⟩ = some ("", et.getD "Link") ∧
    preprocess_page_links ⟨none, none, body⟩ = none := by
  refine ⟨?_, rfl, rfl⟩
  cases body <;> rfl

/-! ## C8: image references -/

/-- The replacement emitted for an `ac:image` element: either a standard
`<img src alt>` element or a raw-markdown passthrough `div`. -/
inductive ImageOut where
  | img (src : String) (alt : String)
  | rawDiv (text : String)
deriving DecidableEq

/-- An `ac:image` element as inspected by `_preprocess_images`: whether an
`ri:attachment` child is present (with its optional `ri:filename`), whether
an `ri:url` child is present (with its optional `ri:value`), and the
`ac:alt` attribute (`""` when absent, matching `get("ac:alt", "")`). -/
structure AcImage where
  attachment : Option (Option String)
  url : Option (Option String)
  alt : String

/-- Embeds `_preprocess_images`, per image element. -/
def preprocess_images (download : Bool) (image_dir : String) (obsidian : Bool)
    (im : AcImage) : ImageOut :=
  match im.attachment with
  | some fn? =>
    let filename := fn?.getD "image"
    let alt := if im.alt.isEmpty then filename else im.alt
    if obsidian then .rawDiv ("![[" ++ filename ++ "]]")
    else if download then .img (image_dir ++ "/" ++ filename) alt
    else .img filename alt
  | none =>
    match im.url with
    | some v? => .img (v?.getD "") (if im.alt.isEmpty then "image" else im.alt)
    | none => .img "" (if im.alt.isEmpty then "image" else im.alt)

/-- C8 counterexample: an image with neither an attachment nor a URL
reference but with an explicit alt attribute keeps that alt text — the
literal `"image"` is only a fallback for a missing alt, so the claim's
"alt text `image` is emitted" does not hold for every such element. -/
theorem preprocess_images_alt_counterexample :
    preprocess_images true "assets" false ⟨none, none, "custom"⟩ = .img "" "custom" ∧
    ("custom" : String) ≠ "image" := by
  exact ⟨rfl, by decide⟩

/-- C8 amended: an attachment reference takes priority over a URL reference
(the URL child is never consulted when an attachment child exists); with
`downloadImages = true` in the standard flavor the source is exactly
`"<imageDirectoryName>/<filename>"` and the alt text defaults to the
filename when the alt attribute is absent; with neither reference present
an image with empty source is emitted whose alt text is the explicit alt
attribute when present and `"image"` otherwise. -/
theorem preprocess_images_spec (d : Bool) (dir fn alt : String)
    (u : Option (Option String)) :
    (∀ fn? : Option String,
      preprocess_images d dir false ⟨some fn?, u, alt⟩ =
        preprocess_images d dir false ⟨some fn?, none, alt⟩) ∧
    preprocess_images true dir false ⟨some (some fn), u, ""⟩ = .img (dir ++ "/" ++ fn) fn ∧
    preprocess_images true dir false ⟨some (some fn), u, alt⟩ =
      .img (dir ++ "/" ++ fn) (if alt.isEmpty then fn else alt) ∧
    preprocess_images d dir false ⟨none, none, alt⟩ =
      .img "" (if alt.isEmpty then "image" else alt) := by
  exact ⟨fun _ => rfl, rfl, rfl, rfl⟩

/-! ## C9: emoticons -/

/-- The table `EMOTICON_MAP` from `converter.py`: the fixed name → Unicode-emoji
table, in source order. -/
def EMOTICON_MAP : List (String × String) :=
  [("smile", "🙂"),
   ("sad", "🙁"),
   ("cheeky", "😛"),
   ("laugh", "😄"),
   ("wink", "😉"),
   ("thumbs-up", "👍"),
   ("thumbs-down", "👎"),
   ("information", "ℹ️"),
   ("tick", "✅"),
   ("cross", "❌"),
   ("warning", "⚠️"),
   ("plus", "➕"),
   ("minus", "➖"),
   ("question", "❓"),
   ("light-on", "💡"),
   ("light-off", "💡"),
   ("yellow-star", "⭐"),
   ("red-star", "⭐"),
   ("green-star", "⭐"),
   ("blue-star", "⭐"),
   ("heart", "❤️"),
   ("broken-heart", "💔")]

/-- Embeds `_preprocess_emoticons`, per emoticon element:
`EMOTICON_MAP.get(emo_name, f":{emo_name}:")`. -/
def preprocess_emoticons (name : String) : String :=
  (EMOTICON_MAP.lookup name).getD (":" ++ name ++ ":")

theorem lookup_eq_none_of_not_mem_keys (l : List (String × String)) (name : String)
    (h : name ∉ l.map Prod.fst) : l.lookup name = none := by
  induction l with
  | nil => rfl
  | cons p t ih =>
    obtain ⟨k, v⟩ := p
    have hk : name ≠ k := by
      intro he
      exact h (by simp [he])
    have ht : name ∉ t.map Prod.fst := by
      intro hm
      exact h (by simp [hm])
    simp [List.lookup, beq_false_of_ne hk, ih ht]

/-- C9: the emoticon table has exactly 22 entries; every emoticon whose name
is a key of the table is replaced by the mapped Unicode emoji, and every
other name is replaced by the literal `":<name>:"`. -/
theorem preprocess_emoticons_spec :
    EMOTICON_MAP.length = 22 ∧
    (∀ p ∈ EMOTICON_MAP, preprocess_emoticons p.1 = p.2) ∧
    (∀ name : String, name ∉ EMOTICON_MAP.map Prod.fst →
      preprocess_emoticons name = ":" ++ name ++ ":") := by
  refine ⟨rfl, by decide, ?_⟩
  intro name h
  unfold preprocess_emoticons
  rw [lookup_eq_none_of_not_mem_keys EMOTICON_MAP name h]
  rfl

/-- Witness for C9: the mapped name `"smile"` yields the smiley code point,
and the unmapped name `"foobar"` yields the literal `":foobar:"`. -/
theorem preprocess_emoticons_spec_witness :
    preprocess_emoticons "smile" = "🙂" ∧ preprocess_emoticons "foobar" = ":foobar:" := by
  constructor
  · exact preprocess_emoticons_spec.2.1 ("smile", "🙂") (by decide)
  · exact preprocess_emoticons_spec.2.2 "foobar" (by decide)

/-! ## Split / join infrastructure for line-based reasoning -/

theorem splitNl_cons (c : Char) (cs : List Char) :
    splitNl (c :: cs) =
      if c = '\n' then [] :: splitNl cs
      else match splitNl cs with
        | l :: ls => (c :: l) :: ls
        | [] => [[c]] := rfl

theorem splitNl_ne_nil (l : List Char) : splitNl l ≠ [] := by
  cases l with
  | nil => simp [splitNl]
  | cons c cs =>
    by_cases hc : c = '\n'
    · simp [splitNl, hc]
    · simp only [splitNl, if_neg hc]
      cases splitNl cs <;> simp

theorem noNl_of_mem_splitNl (cs : List Char) : ∀ l ∈ splitNl cs, '\n' ∉ l := by
  induction cs with
  | nil => simp [splitNl]
  | cons c t ih =>
    by_cases hc : c = '\n'
    · simp only [splitNl, if_pos hc, List.mem_cons]
      rintro l (rfl | hl)
      · simp
      · exact ih l hl
    · rw [splitNl_cons, if_neg hc]
      cases hs : splitNl t with
      | nil => exact absurd hs (splitNl_ne_nil t)
      | cons l0 ls =>
        intro l hl
        have hl' : l ∈ (c :: l0) :: ls := hl
        rcases List.mem_cons.mp hl' with rfl | hm
        · simp only [List.mem_cons, not_or]
          exact ⟨fun he => hc he.symm, ih l0 (by rw [hs]; exact List.mem_cons_self _ _)⟩
        · exact ih l (by rw [hs]; exact List.mem_cons_of_mem _ hm)

theorem joinNl_splitNl (l : List Char) : joinNl (splitNl l) = l := by
  induction l with
  | nil => rfl
  | cons c cs ih =>
    by_cases hc : c = '\n'
    · subst hc
      simp only [splitNl, if_pos rfl]
      cases hs : splitNl cs with
      | nil => exact absurd hs (splitNl_ne_nil cs)
      | cons l0 ls =>
        rw [hs] at ih
        simp [joinNl, ih]
    · simp only [splitNl, if_neg hc]
      cases hs : splitNl cs with
      | nil => exact absurd hs (splitNl_ne_nil cs)
      | cons l0 ls =>
        rw [hs] at ih
        cases ls with
        | nil => simpa [joinNl] using congrArg (c :: ·) ih
        | cons l1 ls' => simpa [joinNl] using congrArg (c :: ·) ih

theorem splitNl_of_noNl (l : List Char) (h : '\n' ∉ l) : splitNl l = [l] := by
  induction l with
  | nil => rfl
  | cons c cs ih =>
    have hc : c ≠ '\n' := fun he => h (by simp [he])
    have hcs : '\n' ∉ cs := fun hm => h (by simp [hm])
    simp only [splitNl, if_neg (fun he => hc he)]
    rw [ih hcs]

theorem splitNl_append_cons_nl (l : List Char) (u : List Char) (h : '\n' ∉ l) :
    splitNl (l ++ '\n' :: u) = l :: splitNl u := by
  induction l with
  | nil => simp [splitNl]
  | cons c cs ih =>
    have hc : c ≠ '\n' := fun he => h (by simp [he])
    have hcs : '\n' ∉ cs := fun hm => h (by simp [hm])
    rw [List.cons_append, splitNl_cons, if_neg (fun he => hc he), ih hcs]

theorem splitNl_joinNl (ls : List (List Char)) (hne : ls ≠ [])
    (h : ∀ l ∈ ls, '\n' ∉ l) : splitNl (joinNl ls) = ls := by
  induction ls with
  | nil => exact absurd rfl hne
  | cons l t ih =>
    cases t with
    | nil => simpa [joinNl] using splitNl_of_noNl l (h l (by simp))
    | cons m t' =>
      have hl : '\n' ∉ l := h l (by simp)
      have ht : ∀ x ∈ m :: t', '\n' ∉ x := fun x hx => h x (by simp [hx])
      simp only [joinNl]
      rw [splitNl_append_cons_nl l _ hl, ih (by simp) ht]

theorem splitNl_append_nl (a : List Char) : splitNl (a ++ ['\n']) = splitNl a ++ [[]] := by
  induction a with
  | nil => simp [splitNl]
  | cons c cs ih =>
    by_cases hc : c = '\n'
    · subst hc
      simp [splitNl, ih]
    · rw [List.cons_append, splitNl_cons, if_neg hc, ih, splitNl_cons, if_neg hc]
      cases hs : splitNl cs with
      | nil => exact absurd hs (splitNl_ne_nil cs)
      | cons l0 ls => rfl

/-! ## C6: info panels in the alternate (obsidian) flavor -/

/-- The `panel_types` dictionary of `_preprocess_info_panels`: macro name →
callout type, with `panel` aliased to `note`. -/
def panel_types : List (String × String) :=
  [("info", "info"), ("note", "note"), ("warning", "warning"), ("tip", "tip"),
   ("panel", "note")]

/-- Embeds `f"[!{callout_type}] {title}" if title else f"[!{callout_type}]"`. -/
def calloutHeader (callout_type title : String) : String :=
  if title.isEmpty then "[!" ++ callout_type ++ "]"
  else "[!" ++ callout_type ++ "] " ++ title

/-- The callout line list built by the obsidian branch of
`_preprocess_info_panels`: the `"> "`-prefixed header line followed by every
line of the rendered body prefixed with `"> "`, a line with blank
(whitespace-only) content becoming the bare `">"`. -/
def calloutLines (callout_type title inner_md : String) : List String :=
  ("> " ++ calloutHeader callout_type title) ::
    (splitNl inner_md.data).map
      (fun l => if (stripL l).isEmpty then ">" else "> " ++ String.mk l)

/-- Python `"\n".join(lines)`. -/
def pyJoinNl (lines : List String) : String := ⟨joinNl (lines.map String.data)⟩

/-- The obsidian branch of `_preprocess_info_panels`, per macro: `name` is
the macro name, `title` the `title` parameter (`""` when absent), and
`rendered` the Markdown text produced for the body by the recursive
`_md(...)` call (which the code then strips).  Returns the text stored in
the raw-markdown passthrough `div`, or `none` when the macro name is not a
panel type. -/
def preprocess_info_panels_obsidian (name title rendered : String) : Option String :=
  match panel_types.lookup name with
  | none => none
  | some callout_type =>
    let inner_md := pyStrip rendered
    some ("\n" ++ pyJoinNl (calloutLines callout_type title inner_md) ++ "\n")

theorem lookup_mem_values (l : List (String × String)) (a b : String)
    (h : l.lookup a = some b) : b ∈ l.map Prod.snd := by
  induction l with
  | nil => cases h
  | cons p t ih =>
    obtain ⟨k, v⟩ := p
    cases hab : (a == k) with
    | true =>
      simp only [List.lookup, hab] at h
      simp [Option.some.inj h]
    | false =>
      simp only [List.lookup, hab] at h
      simp [ih h]

/-- C6: for every panel macro whose name is a panel type (`info`, `note`,
`warning`, `tip`, or `panel`, the latter aliased to callout type `note`),
the obsidian branch emits a raw-passthrough text whose line decomposition
is: an empty line (from the leading wrapper newline), the header line
`"> [!<callout-type>] <title>"` (`"> [!<callout-type>]"` when the title is
empty/absent) followed by every line of the rendered body prefixed with
`"> "` — whitespace-only body lines becoming the bare `">"` — and an empty
line from the trailing wrapper newline. -/
theorem preprocess_info_panels_obsidian_spec (name ct title rendered : String)
    (hl : panel_types.lookup name = some ct) (ht : '\n' ∉ title.data) :
    preprocess_info_panels_obsidian name title rendered =
      some ("\n" ++ pyJoinNl (calloutLines ct title (pyStrip rendered)) ++ "\n") ∧
    splitNl ("\n" ++ pyJoinNl (calloutLines ct title (pyStrip rendered)) ++ "\n").data =
      [] :: ((calloutLines ct title (pyStrip rendered)).map String.data ++ [[]]) ∧
    calloutLines ct title (pyStrip rendered) =
      ("> " ++ calloutHeader ct title) ::
        (splitNl (pyStrip rendered).data).map
          (fun l => if (stripL l).isEmpty then ">" else "> " ++ String.mk l) := by
  have hct : '\n' ∉ ct.data := by
    have hv := lookup_mem_values _ _ _ hl
    simp only [panel_types, List.map_cons, List.map_nil, List.mem_cons,
      List.not_mem_nil, or_false] at hv
    rcases hv with rfl | rfl | rfl | rfl | rfl <;> decide
  have hgt : '\n' ∉ ("> " : String).data := by decide
  have hob : '\n' ∉ ("[!" : String).data := by decide
  have hcb : '\n' ∉ ("]" : String).data := by decide
  have hcbs : '\n' ∉ ("] " : String).data := by decide
  have hhdr : '\n' ∉ ("> " ++ calloutHeader ct title).data := by
    unfold calloutHeader
    by_cases hti : title.isEmpty
    · rw [if_pos hti]
      simp only [String.data_append, List.mem_append, not_or]
      exact ⟨hgt, ⟨hob, hct⟩, hcb⟩
    · rw [if_neg hti]
      simp only [String.data_append, List.mem_append, not_or]
      exact ⟨hgt, ⟨⟨hob, hct⟩, hcbs⟩, ht⟩
  have hlines : ∀ l ∈ (calloutLines ct title (pyStrip rendered)).map String.data,
      '\n' ∉ l := by
    intro l hl'
    rcases List.mem_map.mp hl' with ⟨s, hs, rfl⟩
    unfold calloutLines at hs
    rcases List.mem_cons.mp hs with rfl | hs'
    · exact hhdr
    · rcases List.mem_map.mp hs' with ⟨l0, hl0, rfl⟩
      by_cases hb : (stripL l0).isEmpty
      · rw [if_pos hb]; decide
      · rw [if_neg hb]
        rw [String.data_append]
        simp only [List.mem_append, not_or]
        exact ⟨hgt, noNl_of_mem_splitNl _ l0 hl0⟩
  refine ⟨?_, ?_, rfl⟩
  · unfold preprocess_info_panels_obsidian
    rw [hl]
  · have hne : (calloutLines ct title (pyStrip rendered)).map String.data ≠ [] := by
      unfold calloutLines
      simp
    have hsn : splitNl (joinNl ((calloutLines ct title (pyStrip rendered)).map String.data)) =
        (calloutLines ct title (pyStrip rendered)).map String.data :=
      splitNl_joinNl _ hne hlines
    have hdata : ("\n" ++ pyJoinNl (calloutLines ct title (pyStrip rendered)) ++ "\n").data =
        '\n' :: (joinNl ((calloutLines ct title (pyStrip rendered)).map String.data) ++ ['\n']) := by
      rw [String.data_append, String.data_append]
      rfl
    rw [hdata, splitNl_cons, if_pos rfl, splitNl_append_nl, hsn]

/-- Witness for C6: the `panel` macro (aliased to callout type `note`) with
title `"My Title"` and a three-line rendered body whose middle line is
whitespace-only. -/
theorem preprocess_info_panels_obsidian_spec_witness :
    preprocess_info_panels_obsidian "panel" "My Title" "line1\n \nline2" =
      some "\n> [!note] My Title\n> line1\n>\n> line2\n" := by
  have h := (preprocess_info_panels_obsidian_spec "panel" "note" "My Title"
    "line1\n \nline2" (by decide) (by decide)).1
  rw [h]; decide

/-! ## C1: post-processing and idempotence

`_postprocess` is *not* idempotent: stripping trailing whitespace from the
lines (step 2) can create a run of three or more newlines that step 1 — which
already ran — would have collapsed.  A second application collapses it, and
from then on the output is a fixed point.  The development below proves both
facts: the counterexample, and that `postprocess ∘ postprocess` is
idempotent.  The fixed-point argument works with three invariants of a
character list `t`:

* `noRun3 t`   — no three consecutive newline characters;
* `linesRB t`  — no line has trailing whitespace (no whitespace character
  other than a newline sits immediately before a newline or at the end);
* `stripL t = t` — the document has no leading or trailing whitespace.
-/

/-- C1 counterexample: `_postprocess` is not idempotent.  On
`"a\n \n \n \nb"` the first pass finds no newline run to collapse (the runs
are separated by spaces), then line-stripping produces `"a\n\n\n\nb\n"`,
which a second pass collapses further to `"a\n\nb\n"`. -/
theorem postprocess_not_idempotent :
    postprocess (postprocess "a\n \n \n \nb") ≠ postprocess "a\n \n \n \nb" ∧
    postprocess "a\n \n \n \nb" = "a\n\n\n\nb\n" ∧
    postprocess (postprocess "a\n \n \n \nb") = "a\n\nb\n" := by
  refine ⟨?_, by decide, by decide⟩
  decide

/-- A whitespace character that is not a newline (the characters removed at
end of line by `rstrip`). -/
def wsNoNl (c : Char) : Bool := pyIsSpace c && !(c == '\n')

/-- Does the list start with a newline, or end here?  (Both positions make a
preceding non-newline whitespace character "trailing".) -/
def nlOrEnd : List Char → Bool
  | [] => true
  | d :: _ => d == '\n'

/-- Does the list start with two newlines? -/
def twoNl : List Char → Bool
  | d :: e :: _ => d == '\n' && e == '\n'
  | _ => false

/-- No three consecutive newline characters anywhere. -/
def noRun3 : List Char → Bool
  | c1 :: c2 :: c3 :: cs => !(c1 == '\n' && c2 == '\n' && c3 == '\n') && noRun3 (c2 :: c3 :: cs)
  | _ => true

/-- Every line is free of trailing whitespace: no non-newline whitespace
character immediately precedes a newline or the end of the list. -/
def linesRB : List Char → Bool
  | [] => true
  | [c] => !(wsNoNl c)
  | c :: d :: cs => !(wsNoNl c && d == '\n') && linesRB (d :: cs)

/-- Is the last character whitespace?  (`false` for the empty list.) -/
def wsLast (l : List Char) : Bool :=
  match l.getLast? with
  | none => false
  | some c => pyIsSpace c

theorem noRun3_cons_iff (x : Char) (l : List Char) :
    noRun3 (x :: l) = (!(x == '\n' && twoNl l) && noRun3 l) := by
  match l with
  | [] => simp [noRun3, twoNl]
  | [d] => simp [noRun3, twoNl]
  | d :: e :: t => simp [noRun3, twoNl, Bool.and_assoc]

theorem noRun3_tail {x : Char} {l : List Char} (h : noRun3 (x :: l) = true) :
    noRun3 l = true := by
  rw [noRun3_cons_iff] at h
  simp only [Bool.and_eq_true] at h
  exact h.2

theorem noRun3_append_right {a b : List Char} (h : noRun3 (a ++ b) = true) :
    noRun3 b = true := by
  induction a with
  | nil => exact h
  | cons x a' ih => exact ih (noRun3_tail h)

theorem linesRB_cons (c : Char) (l : List Char) :
    linesRB (c :: l) = (!(wsNoNl c && nlOrEnd l) && linesRB l) := by
  match l with
  | [] => simp [linesRB, nlOrEnd]
  | d :: t => simp [linesRB, nlOrEnd]

theorem linesRB_tail {c : Char} {l : List Char} (h : linesRB (c :: l) = true) :
    linesRB l = true := by
  rw [linesRB_cons] at h
  simp only [Bool.and_eq_true] at h
  exact h.2

theorem linesRB_append_right {a b : List Char} (h : linesRB (a ++ b) = true) :
    linesRB b = true := by
  induction a with
  | nil => exact h
  | cons x a' ih => exact ih (linesRB_tail h)

theorem collapseAux_cons (k : Nat) (c : Char) (cs : List Char) :
    collapseAux k (c :: cs) =
      if c = '\n' then
        (if k < 2 then '\n' :: collapseAux (k + 1) cs else collapseAux k cs)
      else c :: collapseAux 0 cs := rfl

theorem twoNl_cons_of_ne {c : Char} (hcb : (c == '\n') = false) (l : List Char) :
    twoNl (c :: l) = false := by
  cases l with
  | nil => rfl
  | cons e t => simp [twoNl, hcb]

theorem noRun3_repl_cons (m : Nat) (hm : m ≤ 2) (c : Char) (l : List Char)
    (hc : c ≠ '\n') (hl : noRun3 l = true) :
    noRun3 (List.replicate m '\n' ++ c :: l) = true := by
  have hcb : (c == '\n') = false := beq_eq_false_iff_ne.mpr hc
  have h0 : noRun3 (c :: l) = true := by
    rw [noRun3_cons_iff, hcb]
    simp [hl]
  have h1 : noRun3 ('\n' :: c :: l) = true := by
    rw [noRun3_cons_iff, twoNl_cons_of_ne hcb]
    simp [h0]
  match m, hm with
  | 0, _ => simpa using h0
  | 1, _ =>
    simpa using h1
  | 2, _ =>
    have h2 : noRun3 ('\n' :: '\n' :: c :: l) = true := by
      rw [noRun3_cons_iff]
      simp only [twoNl, hcb, Bool.and_false, Bool.and_self, Bool.not_false]
      simp [h1]
    simpa [List.replicate_succ] using h2

theorem noRun3_collapseAux (cs : List Char) :
    ∀ k : Nat, noRun3 (List.replicate (min k 2) '\n' ++ collapseAux k cs) = true := by
  induction cs with
  | nil =>
    intro k
    show noRun3 (List.replicate (min k 2) '\n' ++ []) = true
    match k with
    | 0 => decide
    | 1 => decide
    | k + 2 =>
      have : min (k + 2) 2 = 2 := by omega
      rw [this]
      decide
  | cons c cs ih =>
    intro k
    by_cases hc : c = '\n'
    · subst hc
      by_cases hk : k < 2
      · rw [collapseAux_cons, if_pos rfl, if_pos hk]
        have h1 : min k 2 = k := by omega
        have h2 : min (k + 1) 2 = k + 1 := by omega
        have := ih (k + 1)
        rw [h2] at this
        rw [h1]
        simpa [List.replicate_succ', List.append_assoc] using this
      · rw [collapseAux_cons, if_pos rfl, if_neg hk]
        have h1 : min k 2 = 2 := by omega
        have := ih k
        rw [h1] at this ⊢
        exact this
    · rw [collapseAux_cons, if_neg hc]
      have h0 := ih 0
      simp only [Nat.zero_min, List.replicate_zero, List.nil_append] at h0
      exact noRun3_repl_cons (min k 2) (by omega) c _ hc h0

theorem collapseAux_eq_self (cs : List Char) :
    ∀ k : Nat, k ≤ 2 → noRun3 (List.replicate k '\n' ++ cs) = true → collapseAux k cs = cs := by
  induction cs with
  | nil => intro k _ _; rfl
  | cons c cs ih =>
    intro k hk h
    by_cases hc : c = '\n'
    · subst hc
      have hk2 : k < 2 := by
        by_contra hge
        have hk2 : k = 2 := by omega
        subst hk2
        simp [noRun3, List.replicate_succ] at h
      rw [collapseAux_cons, if_pos rfl, if_pos hk2]
      have h' : noRun3 (List.replicate (k + 1) '\n' ++ cs) = true := by
        simpa [List.replicate_succ', List.append_assoc] using h
      rw [ih (k + 1) (by omega) h']
    · rw [collapseAux_cons, if_neg hc]
      have hcs : noRun3 cs = true :=
        noRun3_tail (noRun3_append_right (a := List.replicate k '\n') h)
      rw [ih 0 (by omega) (by simpa using hcs)]

theorem collapseAux_zero_head? (cs : List Char) :
    (collapseAux 0 cs).head? = cs.head? := by
  cases cs with
  | nil => rfl
  | cons c t =>
    by_cases hc : c = '\n'
    · subst hc
      rw [collapseAux_cons, if_pos rfl, if_pos (by omega)]
      rfl
    · rw [collapseAux_cons, if_neg hc]
      rfl

theorem collapseAux_append_nl (cs : List Char) :
    ∀ k : Nat, cs ≠ [] → cs.getLast? ≠ some '\n' →
      collapseAux k (cs ++ ['\n']) = collapseAux k cs ++ ['\n'] := by
  induction cs with
  | nil => intro k hne _; exact absurd rfl hne
  | cons c rest ih =>
    intro k _ hlast
    cases rest with
    | nil =>
      have hc : c ≠ '\n' := by
        intro he
        exact hlast (by simp [he])
      rw [List.cons_append, collapseAux_cons, if_neg hc, collapseAux_cons, if_neg hc]
      rfl
    | cons d rest' =>
      have hlast' : (d :: rest').getLast? ≠ some '\n' := by
        rwa [List.getLast?_cons_cons] at hlast
      by_cases hc : c = '\n'
      · subst hc
        by_cases hk : k < 2
        · rw [List.cons_append, collapseAux_cons, if_pos rfl, if_pos hk,
            collapseAux_cons, if_pos rfl, if_pos hk, ih (k + 1) (by simp) hlast']
          rfl
        · rw [List.cons_append, collapseAux_cons, if_pos rfl, if_neg hk,
            collapseAux_cons, if_pos rfl, if_neg hk, ih k (by simp) hlast']
      · rw [List.cons_append, collapseAux_cons, if_neg hc, collapseAux_cons, if_neg hc,
          ih 0 (by simp) hlast']
        rfl

theorem collapseAux_getLast? (cs : List Char) :
    ∀ (k : Nat) (x : Char), x ≠ '\n' → cs.getLast? = some x →
      (collapseAux k cs).getLast? = some x := by
  induction cs with
  | nil => intro k x _ h; cases h
  | cons c rest ih =>
    intro k x hx hlast
    cases rest with
    | nil =>
      have hcx : c = x := by simpa using hlast
      subst hcx
      rw [collapseAux_cons, if_neg hx]
      rfl
    | cons d rest' =>
      have hlast' : (d :: rest').getLast? = some x := by
        rwa [List.getLast?_cons_cons] at hlast
      by_cases hc : c = '\n'
      · subst hc
        by_cases hk : k < 2
        · rw [collapseAux_cons, if_pos rfl, if_pos hk]
          have hI := ih (k + 1) x hx hlast'
          cases hA : collapseAux (k + 1) (d :: rest') with
          | nil => rw [hA] at hI; cases hI
          | cons e t' => rw [hA] at hI; rw [List.getLast?_cons_cons]; exact hI
        · rw [collapseAux_cons, if_pos rfl, if_neg hk]
          exact ih k x hx hlast'
      · rw [collapseAux_cons, if_neg hc]
        have hI := ih 0 x hx hlast'
        cases hA : collapseAux 0 (d :: rest') with
        | nil => rw [hA] at hI; cases hI
        | cons e t' => rw [hA] at hI; rw [List.getLast?_cons_cons]; exact hI

theorem nlOrEnd_collapseAux_zero (rest : List Char) :
    nlOrEnd (collapseAux 0 rest) = nlOrEnd rest := by
  cases rest with
  | nil => rfl
  | cons d t =>
    have h := collapseAux_zero_head? (d :: t)
    cases hA : collapseAux 0 (d :: t) with
    | nil => rw [hA] at h; cases h
    | cons e t' =>
      rw [hA] at h
      have : e = d := by simpa using h
      subst this
      rfl

theorem linesRB_collapseAux (cs : List Char) :
    ∀ k : Nat, linesRB cs = true → linesRB (collapseAux k cs) = true := by
  induction cs with
  | nil => intro k _; rfl
  | cons c rest ih =>
    intro k h
    rw [linesRB_cons] at h
    simp only [Bool.and_eq_true] at h
    obtain ⟨h1, h2⟩ := h
    by_cases hc : c = '\n'
    · subst hc
      by_cases hk : k < 2
      · rw [collapseAux_cons, if_pos rfl, if_pos hk, linesRB_cons]
        have : wsNoNl '\n' = false := by decide
        simp [this, ih (k + 1) h2]
      · rw [collapseAux_cons, if_pos rfl, if_neg hk]
        exact ih k h2
    · rw [collapseAux_cons, if_neg hc, linesRB_cons]
      rw [nlOrEnd_collapseAux_zero]
      simp only [h1, Bool.true_and]
      exact ih 0 h2

theorem head?_dropWhile_ws (l : List Char) (c : Char)
    (h : (l.dropWhile pyIsSpace).head? = some c) : pyIsSpace c = false := by
  induction l with
  | nil => cases h
  | cons d t ih =>
    rw [List.dropWhile_cons] at h
    by_cases hd : pyIsSpace d = true
    · rw [if_pos hd] at h
      exact ih h
    · rw [if_neg hd] at h
      have : d = c := by simpa using h
      subst this
      exact Bool.not_eq_true _ ▸ hd

theorem dropWhile_eq_self_of_head (l : List Char)
    (h : ∀ c, l.head? = some c → pyIsSpace c = false) :
    l.dropWhile pyIsSpace = l := by
  cases l with
  | nil => rfl
  | cons d t =>
    rw [List.dropWhile_cons, if_neg]
    rw [h d rfl]
    simp

theorem rstripL_sublist (l : List Char) : (rstripL l).Sublist l := by
  have h := (List.dropWhile_sublist (l := l.reverse) pyIsSpace).reverse
  rwa [List.reverse_reverse] at h

theorem stripL_eq_rstripL_dropWhile (l : List Char) :
    stripL l = rstripL (l.dropWhile pyIsSpace) := rfl

theorem exists_rstripL_append (l : List Char) : ∃ b, l = rstripL l ++ b := by
  refine ⟨(l.reverse.takeWhile pyIsSpace).reverse, ?_⟩
  have h := List.takeWhile_append_dropWhile (p := pyIsSpace) (l := l.reverse)
  have h2 := congrArg List.reverse h
  rw [List.reverse_append, List.reverse_reverse] at h2
  exact h2.symm

theorem wsLast_rstripL (l : List Char) : wsLast (rstripL l) = false := by
  unfold wsLast rstripL
  rw [List.getLast?_reverse]
  cases hh : (l.reverse.dropWhile pyIsSpace).head? with
  | none => rfl
  | some c => exact head?_dropWhile_ws _ c hh

theorem rstripL_eq_self_of (l : List Char) (h : wsLast l = false) : rstripL l = l := by
  cases hr : l.reverse with
  | nil =>
    have : l = [] := by
      have := congrArg List.reverse hr
      rwa [List.reverse_reverse] at this
    subst this
    rfl
  | cons d t =>
    have hgl : l.getLast? = some d := by
      rw [← List.head?_reverse, hr]
      rfl
    have hd : pyIsSpace d = false := by
      unfold wsLast at h
      rwa [hgl] at h
    unfold rstripL
    rw [hr, List.dropWhile_cons, hd]
    simp only [Bool.false_eq_true, if_false]
    rw [← hr, List.reverse_reverse]

theorem noNl_rstripL (l : List Char) (h : '\n' ∉ l) : '\n' ∉ rstripL l :=
  fun hm => h ((rstripL_sublist l).subset hm)

theorem getLast?_ne_nl_of_wsLast (l : List Char) (h : wsLast l = false) :
    l.getLast? ≠ some '\n' := by
  intro he
  unfold wsLast at h
  rw [he] at h
  cases h

theorem stripL_head? (l : List Char) (c : Char) (h : (stripL l).head? = some c) :
    pyIsSpace c = false := by
  rw [stripL_eq_rstripL_dropWhile] at h
  obtain ⟨b, hb⟩ := exists_rstripL_append (l.dropWhile pyIsSpace)
  apply head?_dropWhile_ws l c
  rw [hb, List.head?_append, h]
  rfl

theorem wsLast_stripL (l : List Char) : wsLast (stripL l) = false := by
  rw [stripL_eq_rstripL_dropWhile]
  exact wsLast_rstripL _

theorem stripL_idem (l : List Char) : stripL (stripL l) = stripL l := by
  rw [stripL_eq_rstripL_dropWhile (stripL l)]
  rw [dropWhile_eq_self_of_head _ (stripL_head? l)]
  exact rstripL_eq_self_of _ (wsLast_stripL l)

theorem stripL_fix_parts (t : List Char) (h : stripL t = t) :
    t.dropWhile pyIsSpace = t ∧ rstripL t = t := by
  have hsub1 : (t.dropWhile pyIsSpace).Sublist t := List.dropWhile_sublist _
  have hsub2 : (stripL t).Sublist (t.dropWhile pyIsSpace) := by
    rw [stripL_eq_rstripL_dropWhile]
    exact rstripL_sublist _
  have hlen : (stripL t).length = t.length := by rw [h]
  have hlen1 : (t.dropWhile pyIsSpace).length = t.length := by
    have a1 := hsub2.length_le
    have a2 := hsub1.length_le
    omega
  have hd : t.dropWhile pyIsSpace = t := hsub1.eq_of_length hlen1
  refine ⟨hd, ?_⟩
  have h2 : rstripL t = stripL t := by rw [stripL_eq_rstripL_dropWhile, hd]
  rw [h2, h]

theorem stripL_append_nl (t : List Char) (h : stripL t = t) :
    stripL (t ++ ['\n']) = t := by
  obtain ⟨hd, hr⟩ := stripL_fix_parts t h
  cases t with
  | nil => rfl
  | cons c rest =>
    have hc : pyIsSpace c = false := by
      by_contra hcc
      have hc' : pyIsSpace c = true := by
        cases hcv : pyIsSpace c
        · exact absurd hcv hcc
        · rfl
      rw [List.dropWhile_cons, if_pos hc'] at hd
      have := congrArg List.length hd
      have hle := (List.dropWhile_sublist (l := rest) pyIsSpace).length_le
      simp at this
      omega
    rw [stripL_eq_rstripL_dropWhile, List.cons_append, List.dropWhile_cons, hc]
    simp only [Bool.false_eq_true, if_false]
    rw [← List.cons_append]
    have hrev : (c :: rest).reverse.dropWhile pyIsSpace = (c :: rest).reverse := by
      have := congrArg List.reverse hr
      unfold rstripL at this
      rw [List.reverse_reverse] at this
      exact this
    unfold rstripL
    rw [List.reverse_append]
    show (List.dropWhile pyIsSpace ('\n' :: (c :: rest).reverse)).reverse = c :: rest
    rw [List.dropWhile_cons, if_pos (by decide), hrev, List.reverse_reverse]

theorem wsNoNl_eq_false_of_not_ws {c : Char} (h : pyIsSpace c = false) :
    wsNoNl c = false := by
  unfold wsNoNl
  rw [h]
  rfl

theorem linesRB_nl_cons (u : List Char) : linesRB ('\n' :: u) = linesRB u := by
  rw [linesRB_cons]
  have : wsNoNl '\n' = false := by decide
  simp [this]

theorem linesRB_takeLeft {a b : List Char} (h : linesRB (a ++ b) = true)
    (hw : wsLast a = false) : linesRB a = true := by
  induction a with
  | nil => rfl
  | cons c a' ih =>
    rw [List.cons_append, linesRB_cons] at h
    simp only [Bool.and_eq_true] at h
    obtain ⟨h1, h2⟩ := h
    rw [linesRB_cons]
    cases a' with
    | nil =>
      have hc : pyIsSpace c = false := by
        unfold wsLast at hw
        simpa using hw
      simp [wsNoNl_eq_false_of_not_ws hc, linesRB]
    | cons d t =>
      have hw' : wsLast (d :: t) = false := by
        unfold wsLast at hw ⊢
        rwa [List.getLast?_cons_cons] at hw
      have hn : nlOrEnd ((d :: t) ++ b) = nlOrEnd (d :: t) := rfl
      rw [hn] at h1
      simp only [Bool.and_eq_true]
      exact ⟨h1, ih h2 hw'⟩

theorem linesRB_of_line (l : List Char) (hnl : '\n' ∉ l) (hw : wsLast l = false) :
    linesRB l = true := by
  induction l with
  | nil => rfl
  | cons c rest ih =>
    rw [linesRB_cons]
    cases rest with
    | nil =>
      have hc : pyIsSpace c = false := by
        unfold wsLast at hw
        simpa using hw
      simp [wsNoNl_eq_false_of_not_ws hc, linesRB]
    | cons d t =>
      have hd : d ≠ '\n' := by
        intro he
        exact hnl (by simp [he])
      have hdb : (d == '\n') = false := beq_eq_false_iff_ne.mpr hd
      have hrec : linesRB (d :: t) = true := by
        apply ih
        · intro hm
          exact hnl (List.mem_cons_of_mem _ hm)
        · unfold wsLast at hw ⊢
          rwa [List.getLast?_cons_cons] at hw
      have hn : nlOrEnd (d :: t) = false := by simp [nlOrEnd, hdb]
      simp [hn, hrec]

theorem linesRB_line_concat (l : List Char) (u : List Char) (hnl : '\n' ∉ l)
    (hw : wsLast l = false) (hu : linesRB u = true) :
    linesRB (l ++ '\n' :: u) = true := by
  induction l with
  | nil =>
    rw [List.nil_append, linesRB_nl_cons]
    exact hu
  | cons c rest ih =>
    rw [List.cons_append, linesRB_cons]
    cases rest with
    | nil =>
      have hc : pyIsSpace c = false := by
        unfold wsLast at hw
        simpa using hw
      rw [List.nil_append, linesRB_nl_cons]
      simp [wsNoNl_eq_false_of_not_ws hc, hu]
    | cons d t =>
      have hd : d ≠ '\n' := fun he => hnl (by simp [he])
      have hdb : (d == '\n') = false := beq_eq_false_iff_ne.mpr hd
      have hrec : linesRB ((d :: t) ++ '\n' :: u) = true := by
        apply ih
        · intro hm
          exact hnl (List.mem_cons_of_mem _ hm)
        · unfold wsLast at hw ⊢
          rwa [List.getLast?_cons_cons] at hw
      have hrec2 : linesRB (d :: (t ++ '\n' :: u)) = true := by simpa using hrec
      have hn2 : nlOrEnd (d :: (t ++ '\n' :: u)) = false := by simp [nlOrEnd, hdb]
      simp [hn2, hrec2]

theorem linesRB_joinNl (ls : List (List Char))
    (h : ∀ l ∈ ls, '\n' ∉ l ∧ wsLast l = false) : linesRB (joinNl ls) = true := by
  induction ls with
  | nil => rfl
  | cons l t ih =>
    cases t with
    | nil =>
      obtain ⟨hnl, hw⟩ := h l (by simp)
      simpa [joinNl] using linesRB_of_line l hnl hw
    | cons m t' =>
      obtain ⟨hnl, hw⟩ := h l (by simp)
      have hu : linesRB (joinNl (m :: t')) = true :=
        ih (fun x hx => h x (by simp [hx]))
      simpa [joinNl] using linesRB_line_concat l (joinNl (m :: t')) hnl hw hu

theorem linesRB_append_nl (a : List Char) (h : linesRB a = true) :
    linesRB (a ++ ['\n']) = true := by
  induction a with
  | nil => decide
  | cons c a' ih =>
    rw [List.cons_append, linesRB_cons]
    rw [linesRB_cons] at h
    simp only [Bool.and_eq_true] at h
    obtain ⟨h1, h2⟩ := h
    cases a' with
    | nil =>
      have hc : wsNoNl c = false := by
        simpa [nlOrEnd] using h1
      simp [hc]
      decide
    | cons d t =>
      have hn : nlOrEnd ((d :: t) ++ ['\n']) = nlOrEnd (d :: t) := rfl
      rw [hn]
      simp only [Bool.and_eq_true]
      refine ⟨by simpa [nlOrEnd] using h1, ih h2⟩

theorem wsLast_of_mem_splitNl (u : List Char) (h : linesRB u = true) :
    ∀ l ∈ splitNl u, wsLast l = false := by
  induction u with
  | nil =>
    intro l hl
    have : l = [] := by simpa [splitNl] using hl
    subst this
    rfl
  | cons c t ih =>
    intro l hl
    by_cases hc : c = '\n'
    · subst hc
      rw [splitNl_cons, if_pos rfl] at hl
      rw [linesRB_nl_cons] at h
      rcases List.mem_cons.mp hl with rfl | hm
      · rfl
      · exact ih h l hm
    · rw [splitNl_cons, if_neg hc] at hl
      rw [linesRB_cons] at h
      simp only [Bool.and_eq_true] at h
      obtain ⟨h1, h2⟩ := h
      cases hs : splitNl t with
      | nil => exact absurd hs (splitNl_ne_nil t)
      | cons l0 ls =>
        rw [hs] at hl
        rcases List.mem_cons.mp hl with rfl | hm
        · cases hl0 : l0 with
          | nil =>
            have hn : nlOrEnd t = true := by
              cases t with
              | nil => rfl
              | cons d t' =>
                by_cases hd : d = '\n'
                · simp [nlOrEnd, hd]
                · rw [splitNl_cons, if_neg hd] at hs
                  cases hs' : splitNl t' with
                  | nil => exact absurd hs' (splitNl_ne_nil t')
                  | cons x xs =>
                    rw [hs'] at hs
                    rw [hl0] at hs
                    cases hs
            rw [hn] at h1
            have hwn : wsNoNl c = false := by simpa using h1
            have hcs : pyIsSpace c = false := by
              unfold wsNoNl at hwn
              rwa [beq_eq_false_iff_ne.mpr hc, Bool.not_false, Bool.and_true] at hwn
            unfold wsLast
            simpa using hcs
          | cons e l1 =>
            have hmem : l0 ∈ splitNl t := by
              rw [hs]
              exact List.mem_cons_self _ _
            have hw0 : wsLast l0 = false := ih h2 l0 hmem
            rw [hl0] at hw0
            unfold wsLast at hw0 ⊢
            rwa [List.getLast?_cons_cons]
        · exact ih h2 l (by rw [hs]; exact List.mem_cons_of_mem _ hm)

theorem rstripLines_eq_self (u : List Char) (h : linesRB u = true) :
    rstripLines u = u := by
  unfold rstripLines
  have hmap : (splitNl u).map rstripL = (splitNl u).map id :=
    List.map_congr_left
      (fun l hl => rstripL_eq_self_of l (wsLast_of_mem_splitNl u h l hl))
  rw [hmap, List.map_id, joinNl_splitNl]

theorem linesRB_rstripLines (b : List Char) : linesRB (rstripLines b) = true := by
  unfold rstripLines
  apply linesRB_joinNl
  intro l hl
  rcases List.mem_map.mp hl with ⟨l0, hl0, rfl⟩
  exact ⟨noNl_rstripL l0 (noNl_of_mem_splitNl b l0 hl0), wsLast_rstripL l0⟩

theorem linesRB_stripL (v : List Char) (h : linesRB v = true) :
    linesRB (stripL v) = true := by
  rw [stripL_eq_rstripL_dropWhile]
  have hd : linesRB (v.dropWhile pyIsSpace) = true := by
    have ht := List.takeWhile_append_dropWhile (p := pyIsSpace) (l := v)
    exact linesRB_append_right (a := v.takeWhile pyIsSpace) (by rwa [ht])
  obtain ⟨b, hb⟩ := exists_rstripL_append (v.dropWhile pyIsSpace)
  apply linesRB_takeLeft (b := b)
  · rw [← hb]
    exact hd
  · exact wsLast_rstripL _

theorem twoNl_append_nl (as : List Char) (h : as.getLast? ≠ some '\n') :
    twoNl (as ++ ['\n']) = twoNl as := by
  match as with
  | [] => rfl
  | [y] =>
    have hy : y ≠ '\n' := by
      intro he
      exact h (by simp [he])
    simp [twoNl, beq_eq_false_iff_ne.mpr hy]
  | y :: z :: rest => rfl

theorem noRun3_append_nl (a : List Char) (h : noRun3 a = true)
    (hl : a.getLast? ≠ some '\n') : noRun3 (a ++ ['\n']) = true := by
  induction a with
  | nil => decide
  | cons x as ih =>
    rw [List.cons_append, noRun3_cons_iff]
    rw [noRun3_cons_iff] at h
    simp only [Bool.and_eq_true] at h
    obtain ⟨h1, h2⟩ := h
    cases as with
    | nil =>
      simp [twoNl, noRun3]
    | cons y rest =>
      have hlast' : (y :: rest).getLast? ≠ some '\n' := by
        rwa [List.getLast?_cons_cons] at hl
      have hrec : noRun3 ((y :: rest) ++ ['\n']) = true := ih h2 hlast'
      rw [twoNl_append_nl _ hlast']
      simp only [Bool.and_eq_true]
      exact ⟨h1, hrec⟩

theorem postprocess_fixed_point (t : List Char) (hn : noRun3 t = true)
    (hl : linesRB t = true) (hs : stripL t = t) :
    postprocess ⟨t ++ ['\n']⟩ = ⟨t ++ ['\n']⟩ := by
  have hwl : wsLast t = false := by
    rw [← hs]
    exact wsLast_stripL t
  have hgl : t.getLast? ≠ some '\n' := getLast?_ne_nl_of_wsLast t hwl
  have h1 : collapseNl (t ++ ['\n']) = t ++ ['\n'] := by
    unfold collapseNl
    exact collapseAux_eq_self _ 0 (by omega) (by simpa using noRun3_append_nl t hn hgl)
  have h2 : rstripLines (t ++ ['\n']) = t ++ ['\n'] :=
    rstripLines_eq_self _ (linesRB_append_nl t hl)
  have h3 : stripL (t ++ ['\n']) = t := stripL_append_nl t hs
  unfold postprocess
  have hdata : (String.mk (t ++ ['\n'])).data = t ++ ['\n'] := rfl
  rw [hdata, h1, h2, h3]

theorem second_pass (s1 : List Char) (hl : linesRB s1 = true) (hs : stripL s1 = s1) :
    stripL (rstripLines (collapseNl (s1 ++ ['\n']))) = collapseNl s1 ∧
    noRun3 (collapseNl s1) = true ∧ linesRB (collapseNl s1) = true ∧
    stripL (collapseNl s1) = collapseNl s1 := by
  have hwl : wsLast s1 = false := by
    rw [← hs]
    exact wsLast_stripL s1
  have hgl : s1.getLast? ≠ some '\n' := getLast?_ne_nl_of_wsLast s1 hwl
  have hlt : linesRB (collapseNl s1) = true := linesRB_collapseAux s1 0 hl
  have hnt : noRun3 (collapseNl s1) = true := by simpa using noRun3_collapseAux s1 0
  have hdropt : (collapseNl s1).dropWhile pyIsSpace = collapseNl s1 := by
    apply dropWhile_eq_self_of_head
    intro c hc
    have hh : s1.head? = some c := by
      rw [← collapseAux_zero_head? s1]
      exact hc
    apply stripL_head? s1 c
    rw [hs]
    exact hh
  have hwlt : wsLast (collapseNl s1) = false := by
    cases hgl1 : s1.getLast? with
    | none =>
      have hse : s1 = [] := List.getLast?_eq_none_iff.mp hgl1
      subst hse
      rfl
    | some ch =>
      have hws : pyIsSpace ch = false := by
        have h0 : wsLast s1 = false := hwl
        unfold wsLast at h0
        rwa [hgl1] at h0
      have hchn : ch ≠ '\n' := by
        intro he
        rw [he] at hws
        exact absurd hws (by decide)
      have hgt : (collapseNl s1).getLast? = some ch := collapseAux_getLast? s1 0 ch hchn hgl1
      unfold wsLast
      rw [hgt]
      exact hws
  have hrt : rstripL (collapseNl s1) = collapseNl s1 := rstripL_eq_self_of _ hwlt
  have hst : stripL (collapseNl s1) = collapseNl s1 := by
    rw [stripL_eq_rstripL_dropWhile, hdropt, hrt]
  have hcol : collapseNl (s1 ++ ['\n']) = collapseNl s1 ++ ['\n'] := by
    by_cases hnil : s1 = []
    · subst hnil
      rfl
    · exact collapseAux_append_nl s1 0 hnil hgl
  refine ⟨?_, hnt, hlt, hst⟩
  rw [hcol, rstripLines_eq_self _ (linesRB_append_nl _ hlt), stripL_append_nl _ hst]

theorem postprocess_normal_form (x : String) :
    ∃ t : List Char, noRun3 t = true ∧ linesRB t = true ∧ stripL t = t ∧
      postprocess (postprocess x) = ⟨t ++ ['\n']⟩ := by
  have hl1 : linesRB (stripL (rstripLines (collapseNl x.data))) = true :=
    linesRB_stripL _ (linesRB_rstripLines _)
  have hs1 : stripL (stripL (rstripLines (collapseNl x.data))) =
      stripL (rstripLines (collapseNl x.data)) := stripL_idem _
  obtain ⟨hmain, hnt, hlt, hst⟩ := second_pass _ hl1 hs1
  refine ⟨collapseNl (stripL (rstripLines (collapseNl x.data))), hnt, hlt, hst, ?_⟩
  show (⟨stripL (rstripLines (collapseNl ((postprocess x).data))) ++ ['\n']⟩ : String) = _
  have hdx : (postprocess x).data = stripL (rstripLines (collapseNl x.data)) ++ ['\n'] := rfl
  rw [hdx, hmain]

/-- C1 amended: the post-processor is not idempotent on arbitrary strings
(see the counterexample), but it stabilises after two applications:
`cleanup (cleanup (cleanup x)) = cleanup (cleanup x)` for every string `x`.
Equivalently, `cleanup ∘ cleanup` is idempotent — the single-application
idempotence claimed by the spec fails exactly when stripping trailing
whitespace from lines creates a new run of three-or-more newlines that the
already-finished collapsing step can no longer see. -/
theorem postprocess_twice_idempotent (x : String) :
    postprocess (postprocess (postprocess x)) = postprocess (postprocess x) := by
  obtain ⟨t, hn, hl, hs, heq⟩ := postprocess_normal_form x
  rw [heq]
  exact postprocess_fixed_point t hn hl hs

end Confluence2Md
